import Mathlib

/-!
Shallow embedding of the SVSM memory core (guest-memory access primitive,
address-space bootstrap, page-ownership protocol, RAM file system) together
with verification of its specified properties.

Machine integers are modelled as `Nat`/`Int` with explicit reduction
modulo `2 ^ 64` where pointer arithmetic wraps.  Fallible operations
return `Except`.  Memory visible to the fault-tolerant copy primitive is
a partial byte map `Nat → Option UInt8`; `none` means the address is not
backed by accessible memory, so touching it faults.
-/

namespace Svsm

/-- Error type of the monitor (`SvsmError`), restricted to the variants the
embedded code produces. -/
inductive SvsmError where
  | InvalidAddress
  | FileSystem
  | Alloc
  deriving DecidableEq, Repr

/-- Byte-addressed memory as seen by the fault-tolerant access primitive:
`none` at an address means any load or store of that byte faults. -/
def Mem : Type := Nat → Option UInt8

/-- Point update of a byte map (a successful one-byte store). -/
def memUpdate (m : Mem) (a : Nat) (b : UInt8) : Mem :=
  fun x => if x = a then some b else m x

/-- Embeds the load half of `do_movsb` (guestmem.rs): `rep movsb` copies
`size` bytes one at a time from `src` into a monitor-local buffer, with
`rcx` counting down the bytes still to copy.  A faulting byte load makes the
trap dispatcher resume after the copy with `rcx` still non-zero.  The result
is the final `rcx` together with the prefix of bytes actually written to the
destination buffer. -/
def movsbRead (m : Mem) (src : Nat) : Nat → Nat × List UInt8
  | 0 => (0, [])
  | n + 1 =>
    match m src with
    | none => (n + 1, [])
    | some b =>
      let r := movsbRead m (src + 1) n
      (r.1, b :: r.2)

/-- Embeds the store half of `do_movsb` (guestmem.rs): copies the buffer
`buf` one byte at a time to `dst`; a faulting byte store stops the copy with
`rcx` non-zero.  Returns the final `rcx` and the updated memory. -/
def movsbWrite (m : Mem) (dst : Nat) : List UInt8 → Nat × Mem
  | [] => (0, m)
  | b :: rest =>
    match m dst with
    | none => (rest.length + 1, m)
    | some _ => movsbWrite (memUpdate m dst b) (dst + 1) rest

/-- `GuestPtr<T>` (guestmem.rs): a raw address tagged with the payload
size `n = size_of::<T>()`.  A plain-old-data payload value is identified
with its `n` bytes, so `T` itself is erased to its size.  The handle owns
nothing and guarantees nothing about the address. -/
structure GuestPtr (n : Nat) where
  ptr : Nat
  deriving DecidableEq, Repr

/-- `GuestPtr::read` (guestmem.rs): run `do_movsb` from the target address
into a fresh local buffer; if the final `rcx` is zero the buffer is the
copied value, otherwise the buffer is discarded and `InvalidAddress` is
returned. -/
def GuestPtr.read {n : Nat} (g : GuestPtr n) (m : Mem) : Except SvsmError (List UInt8) :=
  let r := movsbRead m g.ptr n
  if r.1 = 0 then .ok r.2 else .error .InvalidAddress

/-- `GuestPtr::write` (guestmem.rs): run `do_movsb` from the value's bytes
to the target address; `rcx` non-zero afterwards means the store faulted. -/
def GuestPtr.write {n : Nat} (g : GuestPtr n) (m : Mem) (v : List UInt8) :
    Except SvsmError Unit × Mem :=
  let r := movsbWrite m g.ptr v
  if r.1 = 0 then (.ok (), r.2) else (.error .InvalidAddress, r.2)

/-- `GuestPtr::cast` (guestmem.rs): reinterpret the handle at a payload of
size `k`; the numeric address is unchanged. -/
def GuestPtr.cast {n : Nat} (g : GuestPtr n) (k : Nat) : GuestPtr k :=
  ⟨g.ptr⟩

/-- `GuestPtr::offset` (guestmem.rs): `wrapping_offset(count)` on `*mut T`
advances the address by `count * size_of::<T>()` bytes with wraparound
modulo `2 ^ 64`; it performs no memory access. -/
def GuestPtr.offset {n : Nat} (g : GuestPtr n) (count : Int) : GuestPtr n :=
  ⟨(((g.ptr : Int) + count * (n : Int)) % (2 ^ 64 : Int)).toNat⟩

/-- `read_u8` (guestmem.rs): a single one-byte load with the
exception-table recovery sequence; `rcx` is cleared only if the load did
not fault. -/
def read_u8 (m : Mem) (v : Nat) : Except SvsmError UInt8 :=
  match m v with
  | some b => .ok b
  | none => .error .InvalidAddress

/-- `write_u8` (guestmem.rs): a single one-byte store with the
exception-table recovery sequence. -/
def write_u8 (m : Mem) (v : Nat) (val : UInt8) : Except SvsmError Unit × Mem :=
  match m v with
  | some _ => (.ok (), memUpdate m v val)
  | none => (.error .InvalidAddress, m)

/-- The bytes actually stored in memory over `[a, a + n)`, defined when the
whole range is mapped. -/
def memBytes (m : Mem) (a : Nat) : Nat → List UInt8
  | 0 => []
  | n + 1 => (m a).getD 0 :: memBytes m (a + 1) n

end Svsm

namespace Svsm

theorem movsbRead_mapped (m : Mem) :
    ∀ (n : Nat) (src : Nat), (∀ i, i < n → (m (src + i)).isSome) →
      movsbRead m src n = (0, memBytes m src n) := by
  intro n
  induction n with
  | zero => intro src _; rfl
  | succ k ih =>
    intro src h
    have h0 : (m (src + 0)).isSome := h 0 (Nat.succ_pos k)
    simp only [Nat.add_zero] at h0
    obtain ⟨b, hb⟩ := Option.isSome_iff_exists.mp h0
    have hrest : ∀ i, i < k → (m (src + 1 + i)).isSome := by
      intro i hi
      have := h (i + 1) (by omega)
      have e : src + (i + 1) = src + 1 + i := by omega
      rwa [e] at this
    simp [movsbRead, hb, ih (src + 1) hrest, memBytes]

theorem movsbRead_fault (m : Mem) :
    ∀ (n : Nat) (src : Nat) (i : Nat), i < n → m (src + i) = none →
      (∀ j, j < i → (m (src + j)).isSome) → (movsbRead m src n).1 = n - i := by
  intro n
  induction n with
  | zero => intro src i hi; omega
  | succ k ih =>
    intro src i hi hnone hbefore
    cases i with
    | zero =>
      simp only [Nat.add_zero] at hnone
      simp [movsbRead, hnone]
    | succ j =>
      have h0 : (m (src + 0)).isSome := hbefore 0 (Nat.succ_pos j)
      simp only [Nat.add_zero] at h0
      obtain ⟨b, hb⟩ := Option.isSome_iff_exists.mp h0
      have hnone1 : m (src + 1 + j) = none := by
        have e : src + (j + 1) = src + 1 + j := by omega
        rwa [e] at hnone
      have hbefore1 : ∀ l, l < j → (m (src + 1 + l)).isSome := by
        intro l hl
        have := hbefore (l + 1) (by omega)
        have e : src + (l + 1) = src + 1 + l := by omega
        rwa [e] at this
      have := ih (src + 1) j (by omega) hnone1 hbefore1
      simp [movsbRead, hb, this]

theorem movsbWrite_mapped :
    ∀ (v : List UInt8) (m : Mem) (dst : Nat),
      (∀ i, i < v.length → (m (dst + i)).isSome) →
      (movsbWrite m dst v).1 = 0 ∧
      ∀ a, (movsbWrite m dst v).2 a =
        if dst ≤ a ∧ a < dst + v.length then v[a - dst]? else m a := by
  intro v
  induction v with
  | nil =>
    intro m dst _
    refine ⟨rfl, fun a => ?_⟩
    simp only [movsbWrite, List.length_nil, Nat.add_zero]
    rw [if_neg (by omega)]
  | cons b rest ih =>
    intro m dst h
    have h0 : (m (dst + 0)).isSome := h 0 (by simp)
    simp only [Nat.add_zero] at h0
    obtain ⟨c, hc⟩ := Option.isSome_iff_exists.mp h0
    have hrest : ∀ i, i < rest.length → ((memUpdate m dst b) (dst + 1 + i)).isSome := by
      intro i hi
      have hne : dst + 1 + i ≠ dst := by omega
      have := h (i + 1) (by simp; omega)
      have e : dst + (i + 1) = dst + 1 + i := by omega
      rw [e] at this
      simpa [memUpdate, hne] using this
    obtain ⟨hrcx, hmem⟩ := ih (memUpdate m dst b) (dst + 1) hrest
    have hstep : movsbWrite m dst (b :: rest) =
        movsbWrite (memUpdate m dst b) (dst + 1) rest := by
      simp [movsbWrite, hc]
    refine ⟨by rw [hstep]; exact hrcx, fun a => ?_⟩
    rw [hstep, hmem a]
    simp only [List.length_cons]
    by_cases hin : dst ≤ a ∧ a < dst + (rest.length + 1)
    · by_cases ha : a = dst
      · rw [if_neg (by omega), if_pos hin, ha]
        simp [memUpdate]
      · have h1 : dst + 1 ≤ a ∧ a < dst + 1 + rest.length := by omega
        rw [if_pos h1, if_pos hin]
        have e : a - dst = (a - (dst + 1)) + 1 := by omega
        rw [e]
        simp
    · have h1 : ¬ (dst + 1 ≤ a ∧ a < dst + 1 + rest.length) := by omega
      have ha : a ≠ dst := by omega
      rw [if_neg h1, if_neg hin]
      simp [memUpdate, ha]

theorem memBytes_of_pointwise :
    ∀ (n : Nat) (m : Mem) (a : Nat) (v : List UInt8), v.length = n →
      (∀ i, i < n → m (a + i) = v[i]?) → memBytes m a n = v := by
  intro n
  induction n with
  | zero =>
    intro m a v hlen _
    cases v with
    | nil => rfl
    | cons x xs => simp at hlen
  | succ k ih =>
    intro m a v hlen h
    cases v with
    | nil => simp at hlen
    | cons x xs =>
      have h0 : m (a + 0) = some x := by simpa using h 0 (by omega)
      simp only [Nat.add_zero] at h0
      have hrest : ∀ i, i < k → m (a + 1 + i) = xs[i]? := by
        intro i hi
        have := h (i + 1) (by omega)
        have e : a + (i + 1) = a + 1 + i := by omega
        rw [e] at this
        simpa using this
      simp only [memBytes, h0, Option.getD_some]
      exact congrArg (x :: ·) (ih m (a + 1) xs (by simpa using hlen) hrest)

/-- Concrete memory for witnesses: bytes `0..7` mapped with value equal to
the address, everything else unmapped. -/
def memW : Mem := fun a => if a < 8 then some (UInt8.ofNat a) else none

/-- Concrete memory for witnesses: the bytes at addresses `4090..4100`
(straddling the page boundary at `4096`) mapped, everything else
unmapped. -/
def memW2 : Mem := fun a => if 4090 ≤ a ∧ a < 4101 then some 0 else none

theorem read_ok_of_mapped (n : Nat) (g : GuestPtr n) (m : Mem)
    (h : ∀ i, i < n → (m (g.ptr + i)).isSome) :
    g.read m = .ok (memBytes m g.ptr n) := by
  simp [GuestPtr.read, movsbRead_mapped m n g.ptr h]

/-- C3: for every payload size and every handle, `GuestPtr::read` returns
`Ok` with the bytes copied byte-for-byte from the target address when every
byte of the source range is accessible (the `rcx` failure signal counts down
to zero), and returns `Err(InvalidAddress)` when some byte of the range
faults (the failure signal stays non-zero); the embedding is a total
function, so no panic is possible, and in the failure case the partially
filled destination buffer is discarded rather than returned. -/
theorem guestptr_read_fault_contained (n : Nat) (g : GuestPtr n) (m : Mem) :
    ((∀ i, i < n → (m (g.ptr + i)).isSome) →
      g.read m = .ok (memBytes m g.ptr n)) ∧
    ((∃ i, i < n ∧ m (g.ptr + i) = none) →
      g.read m = .error .InvalidAddress) := by
  constructor
  · exact read_ok_of_mapped n g m
  · intro h
    have hd : ∃ i, m (g.ptr + i) = none := ⟨h.choose, h.choose_spec.2⟩
    set i0 := Nat.find hd with hi0
    have hp : m (g.ptr + i0) = none := Nat.find_spec hd
    have hlt : i0 < n := Nat.lt_of_le_of_lt (Nat.find_min' hd h.choose_spec.2) h.choose_spec.1
    have hbefore : ∀ j, j < i0 → (m (g.ptr + j)).isSome := by
      intro j hj
      have := Nat.find_min hd hj
      exact Option.ne_none_iff_isSome.mp this
    have hrcx : (movsbRead m g.ptr n).1 = n - i0 :=
      movsbRead_fault m n g.ptr i0 hlt hp hbefore
    have hne : (movsbRead m g.ptr n).1 ≠ 0 := by omega
    simp [GuestPtr.read, hne]

/-- Witness for C3: reading 3 mapped bytes at address 2 succeeds; reading
3 bytes at address 6 (address 8 is unmapped) returns `InvalidAddress`. -/
theorem guestptr_read_fault_contained_witness :
    GuestPtr.read (⟨2⟩ : GuestPtr 3) memW = .ok (memBytes memW 2 3) ∧
    GuestPtr.read (⟨6⟩ : GuestPtr 3) memW = .error .InvalidAddress :=
  ⟨(guestptr_read_fault_contained 3 ⟨2⟩ memW).1 (by decide),
   (guestptr_read_fault_contained 3 ⟨6⟩ memW).2 ⟨2, by decide⟩⟩

/-- C4: for every payload size `n` (in particular 1, 2, 4 and 8 bytes as
well as arbitrary struct sizes), every value of that size and every address
whose `n` bytes are all backed by mapped memory, `write` through a handle
followed by `read` through a handle at the same address succeeds and yields
exactly the written value — the flat byte map makes no distinction at page
boundaries, so payloads straddling a boundary are covered; the fixed-width
one-byte variants `write_u8`/`read_u8` enjoy the same round trip. -/
theorem guestptr_write_read_roundtrip (n : Nat) (g : GuestPtr n) (m : Mem)
    (v : List UInt8) (hlen : v.length = n)
    (hmap : ∀ i, i < n → (m (g.ptr + i)).isSome) :
    (g.write m v).1 = .ok () ∧
    GuestPtr.read g (g.write m v).2 = .ok v ∧
    (∀ a b, (m a).isSome → (write_u8 m a b).1 = .ok () ∧
      read_u8 (write_u8 m a b).2 a = .ok b) := by
  have hmap' : ∀ i, i < v.length → (m (g.ptr + i)).isSome := by
    intro i hi; exact hmap i (hlen ▸ hi)
  obtain ⟨hrcx, hmem'⟩ := movsbWrite_mapped v m g.ptr hmap'
  have hw : g.write m v = (.ok (), (movsbWrite m g.ptr v).2) := by
    simp [GuestPtr.write, hrcx]
  refine ⟨by rw [hw], ?_, ?_⟩
  · rw [hw]
    have hpt : ∀ i, i < n → (movsbWrite m g.ptr v).2 (g.ptr + i) = v[i]? := by
      intro i hi
      rw [hmem' (g.ptr + i)]
      rw [if_pos (by omega)]
      congr 1
      omega
    have hsome : ∀ i, i < n → ((movsbWrite m g.ptr v).2 (g.ptr + i)).isSome := by
      intro i hi
      rw [hpt i hi, List.getElem?_eq_getElem (by omega)]
      rfl
    have hok := read_ok_of_mapped n g (movsbWrite m g.ptr v).2 hsome
    rw [hok, memBytes_of_pointwise n (movsbWrite m g.ptr v).2 g.ptr v hlen hpt]
  · intro a b hsome
    obtain ⟨c, hc⟩ := Option.isSome_iff_exists.mp hsome
    constructor
    · simp [write_u8, hc]
    · simp [write_u8, hc, read_u8, memUpdate]

/-- Witness for C4: an 8-byte payload written at address 4092 (straddling
the page boundary at 4096) reads back intact, and a one-byte write/read
round trip at address 4095 succeeds. -/
theorem guestptr_write_read_roundtrip_witness :
    ((⟨4092⟩ : GuestPtr 8).write memW2 [1, 2, 3, 4, 5, 6, 7, 8]).1 = .ok () ∧
    GuestPtr.read (⟨4092⟩ : GuestPtr 8)
      ((⟨4092⟩ : GuestPtr 8).write memW2 [1, 2, 3, 4, 5, 6, 7, 8]).2 =
      .ok [1, 2, 3, 4, 5, 6, 7, 8] ∧
    (∀ a b, (memW2 a).isSome → (write_u8 memW2 a b).1 = .ok () ∧
      read_u8 (write_u8 memW2 a b).2 a = .ok b) :=
  guestptr_write_read_roundtrip 8 ⟨4092⟩ memW2 [1, 2, 3, 4, 5, 6, 7, 8]
    (by decide) (by decide)

/-- C7: advancing a handle by a signed step count and then by the negated
count restores the numeric address exactly (pointer arithmetic wraps modulo
`2 ^ 64`); `offset` is a pure function of the address and never touches
memory. -/
theorem guestptr_offset_roundtrip (n : Nat) (g : GuestPtr n) (c : Int)
    (h : g.ptr < 2 ^ 64) : (g.offset c).offset (-c) = g := by
  obtain ⟨p⟩ := g
  simp only [GuestPtr.offset, GuestPtr.mk.injEq, neg_mul] at *
  generalize c * (n : Int) = x
  have hM : (2 : Int) ^ 64 = 18446744073709551616 := by norm_num
  have hN : (2 : Nat) ^ 64 = 18446744073709551616 := by norm_num
  rw [hM] at *
  rw [hN] at h
  omega

/-- Witness for C7: a 4-byte handle at address 5 moved 3 steps forward and
3 steps back returns to address 5. -/
theorem guestptr_offset_roundtrip_witness :
    ((⟨5⟩ : GuestPtr 4).offset 3).offset (-3) = (⟨5⟩ : GuestPtr 4) :=
  guestptr_offset_roundtrip 4 ⟨5⟩ 3 (by norm_num)

/-! ### Address-space bootstrap and page-ownership protocol (svsm_paging.rs) -/

/-- `PAGE_SIZE` from `crate::types`: 4 KiB pages. -/
def PAGE_SIZE : Nat := 4096

/-- `page_align_up` from `crate::utils`: round an address up to the next
page boundary. -/
def page_align_up (x : Nat) : Nat := (x + PAGE_SIZE - 1) / PAGE_SIZE * PAGE_SIZE

/-- Modelled from the spec: `PTEntryFlags::exec()`, `data()` and
`data_ro()` (the page-table implementation is not among the provided
sources) are opaque permission tags for executable, read-write and
read-only mappings respectively. -/
inductive PTEntryFlags where
  | exec
  | data
  | data_ro
  deriving DecidableEq, Repr

/-- The ELF program-header flags tested by `init_page_table`
(`Elf64PhdrFlags::EXECUTE` / `Elf64PhdrFlags::WRITE`). -/
structure Elf64PhdrFlags where
  execute : Bool
  write : Bool
  deriving DecidableEq, Repr

/-- One loadable segment as produced by
`kernel_elf.image_load_segment_iter`: its virtual address range and its
program-header flags.  ELF parsing itself is an external collaborator; the
embedding takes the resulting segment list as input. -/
structure Segment where
  vaddr_begin : Nat
  vaddr_end : Nat
  flags : Elf64PhdrFlags
  deriving DecidableEq, Repr

/-- Modelled from the spec: the two quantities `init_page_table` reads from
`IgvmParams` (whose implementation is not among the provided sources): the
size of the reserved area at the start of the kernel region and the size of
the parameter block itself. -/
structure IgvmParams where
  reserved_kernel_area_size : Nat
  size : Nat
  deriving DecidableEq, Repr

/-- The fields of `KernelLaunchInfo` (bootlib) consumed by
`init_page_table`; `heap_area_virt_end()` is represented by its value. -/
structure KernelLaunchInfo where
  kernel_region_phys_start : Nat
  kernel_region_virt_start : Nat
  igvm_params_virt_addr : Nat
  igvm_params_phys_addr : Nat
  heap_area_virt_start : Nat
  heap_area_virt_end : Nat
  heap_area_phys_start : Nat
  deriving DecidableEq, Repr

/-- One call to `PageTableRef::map_region`: virtual range, physical start
and entry flags. -/
structure MapRegion where
  vstart : Nat
  vend : Nat
  phys : Nat
  flags : PTEntryFlags
  deriving DecidableEq, Repr

/-- The flag selection of `init_page_table` (svsm_paging.rs lines 55-61):
execute wins over write, write over read-only. -/
def segment_pt_flags (f : Elf64PhdrFlags) : PTEntryFlags :=
  if f.execute then .exec
  else if f.write then .data
  else .data_ro

/-- The page-aligned length by which the physical cursor advances for one
segment (svsm_paging.rs lines 53-54, 67). -/
def segLen (s : Segment) : Nat := page_align_up s.vaddr_end - s.vaddr_begin

/-- The segment-mapping loop of `init_page_table` (svsm_paging.rs lines
50-68): map each segment at the physical cursor, then advance the cursor by
the page-aligned segment length. -/
def mapSegments (phys : Nat) : List Segment → List MapRegion
  | [] => []
  | seg :: rest =>
    let aligned_vaddr_end := page_align_up seg.vaddr_end
    let segment_len := aligned_vaddr_end - seg.vaddr_begin
    ⟨seg.vaddr_begin, aligned_vaddr_end, phys, segment_pt_flags seg.flags⟩ ::
      mapSegments (phys + segment_len) rest

/-- `init_page_table` (svsm_paging.rs): the sequence of `map_region` calls
it performs, in order — the kernel ELF segments starting at the kernel
region's physical start (offset by the IGVM reserved area when launch
parameters are present), then the IGVM parameter block if present, then the
heap.  `igvm_of` stands for `IgvmParams::new`, which parses the parameter
block found at the given virtual address. -/
def init_page_table (li : KernelLaunchInfo) (igvm_of : Nat → IgvmParams)
    (segments : List Segment) : List MapRegion :=
  let igvm_params : Option IgvmParams :=
    if li.igvm_params_virt_addr ≠ 0 then some (igvm_of li.igvm_params_virt_addr)
    else none
  let phys : Nat :=
    match igvm_params with
    | some ip => li.kernel_region_phys_start + ip.reserved_kernel_area_size
    | none => li.kernel_region_phys_start
  mapSegments phys segments ++
    (match igvm_params with
     | some ip =>
       [⟨li.igvm_params_virt_addr, li.igvm_params_virt_addr + ip.size,
         li.igvm_params_phys_addr, .data⟩]
     | none => []) ++
    [⟨li.heap_area_virt_start, li.heap_area_virt_end, li.heap_area_phys_start, .data⟩]

/-- The physical cursor value before the first segment is mapped
(svsm_paging.rs lines 45-48): the kernel region's physical start, plus the
IGVM reserved area when launch parameters are present. -/
def physBase (li : KernelLaunchInfo) (igvm_of : Nat → IgvmParams) : Nat :=
  if li.igvm_params_virt_addr ≠ 0 then
    li.kernel_region_phys_start + (igvm_of li.igvm_params_virt_addr).reserved_kernel_area_size
  else li.kernel_region_phys_start

theorem mapSegments_length (segments : List Segment) :
    ∀ phys, (mapSegments phys segments).length = segments.length := by
  induction segments with
  | nil => intro phys; rfl
  | cons s rest ih => intro phys; simp [mapSegments, ih]

theorem mapSegments_get (segments : List Segment) :
    ∀ (phys i : Nat) (hi : i < segments.length),
      (mapSegments phys segments)[i]? =
        some ⟨(segments.get ⟨i, hi⟩).vaddr_begin,
              page_align_up (segments.get ⟨i, hi⟩).vaddr_end,
              phys + ((segments.take i).map segLen).sum,
              segment_pt_flags (segments.get ⟨i, hi⟩).flags⟩ := by
  induction segments with
  | nil => intro phys i hi; simp at hi
  | cons s rest ih =>
    intro phys i hi
    cases i with
    | zero => simp [mapSegments]
    | succ j =>
      have hj : j < rest.length := by simpa using hi
      have hstep := ih (phys + segLen s) j hj
      simp only [mapSegments, List.getElem?_cons_succ]
      have e : page_align_up s.vaddr_end - s.vaddr_begin = segLen s := rfl
      rw [e, hstep]
      simp [Nat.add_assoc]

theorem init_page_table_getElem_segment (li : KernelLaunchInfo)
    (igvm_of : Nat → IgvmParams) (segments : List Segment) (i : Nat)
    (hi : i < segments.length) :
    (init_page_table li igvm_of segments)[i]? =
      (mapSegments (physBase li igvm_of) segments)[i]? := by
  have hlen : i < (mapSegments (physBase li igvm_of) segments).length := by
    rw [mapSegments_length]; exact hi
  by_cases h : li.igvm_params_virt_addr ≠ 0
  · simp only [init_page_table, physBase, List.append_assoc]
    rw [List.getElem?_append_left (by rw [mapSegments_length]; exact hi)]
    simp [h]
  · simp only [init_page_table, physBase, List.append_assoc]
    rw [List.getElem?_append_left (by rw [mapSegments_length]; exact hi)]
    simp [h]

/-- C5: `init_page_table` maps the loadable segments, in iteration order,
to consecutive contiguous physical ranges: the `i`-th segment mapping
starts at the kernel region's physical start, offset by the IGVM reserved
area when a launch-parameter block is present, plus the sum of the
page-aligned lengths of all earlier segments — i.e. the physical cursor
advances by exactly each segment's page-aligned length. -/
theorem init_page_table_segments_contiguous (li : KernelLaunchInfo)
    (igvm_of : Nat → IgvmParams) (segments : List Segment) (i : Nat)
    (hi : i < segments.length) :
    (init_page_table li igvm_of segments)[i]? =
      some ⟨(segments.get ⟨i, hi⟩).vaddr_begin,
            page_align_up (segments.get ⟨i, hi⟩).vaddr_end,
            physBase li igvm_of + ((segments.take i).map segLen).sum,
            segment_pt_flags (segments.get ⟨i, hi⟩).flags⟩ := by
  rw [init_page_table_getElem_segment li igvm_of segments i hi,
    mapSegments_get segments (physBase li igvm_of) i hi]

/-- Concrete launch info for witnesses, with an IGVM parameter block
present (`igvm_params_virt_addr ≠ 0`). -/
def liW : KernelLaunchInfo :=
  ⟨32768, 1048576, 20480, 4096, 65536, 73728, 16384⟩

/-- Concrete `IgvmParams::new` oracle for witnesses: reserved kernel area
of 12288 bytes, parameter block of 4096 bytes. -/
def igvmW : Nat → IgvmParams := fun _ => ⟨12288, 4096⟩

/-- Concrete segment list for witnesses: an execute+write segment followed
by a write-only segment whose end is not page aligned. -/
def segsW : List Segment :=
  [⟨1048576, 1052672, ⟨true, true⟩⟩, ⟨1052672, 1054720, ⟨false, true⟩⟩]

/-- Witness for C5: in the concrete layout, the second segment is mapped at
physical `32768 + 12288 + 4096 = 49152` with its end page aligned up to
`1056768`. -/
theorem init_page_table_segments_contiguous_witness :
    (init_page_table liW igvmW segsW)[1]? =
      some ⟨1052672, 1056768, 49152, .data⟩ := by
  rw [init_page_table_segments_contiguous liW igvmW segsW 1 (by norm_num [segsW])]
  decide

/-- C6: the page-table entry flags of every segment mapping installed by
`init_page_table` are derived from the segment attributes with execute
taking precedence over write and write over read-only: an executable
segment gets executable permissions regardless of its write flag, a
non-executable writable segment gets read-write permissions, and all other
segments get read-only permissions. -/
theorem init_page_table_segment_flags (li : KernelLaunchInfo)
    (igvm_of : Nat → IgvmParams) (segments : List Segment) (i : Nat)
    (hi : i < segments.length) :
    ((init_page_table li igvm_of segments)[i]?).map MapRegion.flags =
      some (if (segments.get ⟨i, hi⟩).flags.execute then PTEntryFlags.exec
            else if (segments.get ⟨i, hi⟩).flags.write then PTEntryFlags.data
            else PTEntryFlags.data_ro) := by
  rw [init_page_table_getElem_segment li igvm_of segments i hi,
    mapSegments_get segments (physBase li igvm_of) i hi]
  simp [segment_pt_flags]

/-- Witness for C6: the first concrete segment has both the execute and the
write flag set and is mapped executable — execute takes precedence. -/
theorem init_page_table_segment_flags_witness :
    ((init_page_table liW igvmW segsW)[0]?).map MapRegion.flags =
      some PTEntryFlags.exec := by
  rw [init_page_table_segment_flags liW igvmW segsW 0 (by norm_num [segsW])]
  decide

/-- `PageSize` (crate::types). -/
inductive PageSize where
  | Regular
  | Huge
  deriving DecidableEq, Repr

/-- `PvalidateOp` (crate::sev). -/
inductive PvalidateOp where
  | Valid
  | Invalid
  deriving DecidableEq, Repr

/-- `PageStateChangeOp` (crate::sev::ghcb). -/
inductive PageStateChangeOp where
  | PscShared
  | PscPrivate
  deriving DecidableEq, Repr

/-- Observable actions of `invalidate_stage2`: a `pvalidate` of a mapped
page and the GHCB page-state-change request with its argument range. -/
inductive Stage2Event where
  | pvalidateEv (vaddr : Nat) (size : PageSize) (op : PvalidateOp)
  | pageStateChangeEv (start stop : Nat) (size : PageSize) (op : PageStateChangeOp)
  deriving DecidableEq, Repr

/-- The per-page loop of `invalidate_stage2` (svsm_paging.rs lines
105-112): while `paddr < pend`, map the page into the per-CPU window
(`create` stands for `PerCPUPageMappingGuard::create_4k`, returning the
window's virtual address), `pvalidate` it with `Invalid` (`pval` is the
hardware operation's outcome), and advance by `PAGE_SIZE`.  Either fallible
step propagates its error.  The loop is expressed with a fuel argument
bounding the iteration count; `PAGE_SIZE > 0` makes `pend - paddr` strictly
decrease, so any fuel of at least `pend` page lengths is exact. -/
def invalidateLoop (create : Nat → Except SvsmError Nat)
    (pval : Nat → Except SvsmError Unit) :
    Nat → Nat → Nat → Except SvsmError (List Stage2Event × Nat)
  | 0, paddr, _ => .ok ([], paddr)
  | fuel + 1, paddr, pend =>
    if paddr < pend then
      match create paddr with
      | .error e => .error e
      | .ok vaddr =>
        match pval vaddr with
        | .error e => .error e
        | .ok _ =>
          match invalidateLoop create pval fuel (paddr + PAGE_SIZE) pend with
          | .error e => .error e
          | .ok (evs, last) =>
            .ok (.pvalidateEv vaddr .Regular .Invalid :: evs, last)
    else .ok ([], paddr)

/-- `invalidate_stage2` (svsm_paging.rs): invalidate the 640 KiB stage2
region page by page starting at physical null, then — when the
configuration requires page-state-change — issue one `PscShared`
page-state-change request whose range is `(paddr, pend)` with `paddr` the
loop cursor *after* the loop.  The emitted events record the call
arguments. -/
def invalidate_stage2 (psc_required : Bool)
    (create : Nat → Except SvsmError Nat)
    (pval : Nat → Except SvsmError Unit) : Except SvsmError (List Stage2Event) :=
  let pstart : Nat := 0
  let pend : Nat := pstart + 640 * 1024
  match invalidateLoop create pval pend pstart pend with
  | .error e => .error e
  | .ok (evs, paddr) =>
    if psc_required then
      .ok (evs ++ [.pageStateChangeEv paddr pend .Regular .PscShared])
    else .ok evs

set_option maxRecDepth 100000 in
/-- C1 (code bug): with page-state-change required and every per-page step
succeeding, `invalidate_stage2` does produce one page-state-change request
— but its range is `(655360, 655360)`, the empty range starting at the
*end* of the invalidated region, because the loop cursor `paddr` (equal to
`pend` after the loop) is passed instead of the region start; no request
covering the full region `(0, 655360)` is issued, contradicting the claim
that the single shared request covers the entire invalidated range. -/
theorem invalidate_stage2_psc_empty_range :
    ∃ evs, invalidate_stage2 true (fun p => .ok p) (fun _ => .ok ()) = .ok evs ∧
      evs.getLast? = some (.pageStateChangeEv 655360 655360 .Regular .PscShared) ∧
      Stage2Event.pageStateChangeEv 0 655360 .Regular .PscShared ∉ evs ∧
      (evs.filter (fun e =>
        match e with
        | .pageStateChangeEv _ _ _ _ => true
        | _ => false)).length = 1 := by
  refine ⟨(List.range 160).map (fun i => .pvalidateEv (4096 * i) .Regular .Invalid)
      ++ [.pageStateChangeEv 655360 655360 .Regular .PscShared], ?_, ?_, ?_, ?_⟩
  · rfl
  · decide
  · decide
  · decide

/-! ### Per-vCPU state page preparation (sev/vmsa.rs) -/

/-- `RMPFlags` (sev/utils.rs), restricted to the value used by
`allocate_new_vmsa`. -/
inductive RMPFlags where
  | VMPL1_VMSA
  deriving DecidableEq, Repr

/-- State of the external page allocator: its pool of free zeroed pages,
identified by virtual address.  `allocate_zeroed_page` hands out the next
free page (failing when none is available) and `free_page` returns a page
to the pool. -/
structure AllocState where
  free_pages : List Nat
  deriving DecidableEq, Repr

/-- `allocate_zeroed_page` (mm/alloc): pop a page from the free pool, or
fail with `()` as in the source's `Result<VirtAddr, ()>` signature. -/
def allocate_zeroed_page (s : AllocState) : Except Unit (Nat × AllocState) :=
  match s.free_pages with
  | [] => .error ()
  | p :: rest => .ok (p, ⟨rest⟩)

/-- `free_page` (mm/alloc): return a page to the free pool. -/
def free_page (vaddr : Nat) (s : AllocState) : AllocState :=
  ⟨vaddr :: s.free_pages⟩

/-- Observable actions of `allocate_new_vmsa`: the allocation attempt with
its outcome, the `rmp_adjust` role grant with its arguments, and any
`free_page`. -/
inductive VmsaEvent where
  | allocEv (result : Option Nat)
  | rmpAdjustEv (vaddr : Nat) (flags : RMPFlags) (huge : Bool)
  | freePageEv (vaddr : Nat)
  deriving DecidableEq, Repr

/-- `allocate_new_vmsa` (sev/vmsa.rs): allocate a zeroed page, then ask
hardware (`rmp_ok` is the outcome of `rmp_adjust`) to grant it the VMPL-1
VMSA role; on grant failure the page is freed before the error is
returned.  Returns the result, the allocator state afterwards, and the
event trace in execution order. -/
def allocate_new_vmsa (rmp_ok : Nat → RMPFlags → Bool → Bool) (s : AllocState) :
    Except Unit Nat × AllocState × List VmsaEvent :=
  match allocate_zeroed_page s with
  | .error _ => (.error (), s, [.allocEv none])
  | .ok (vmsa_page, s1) =>
    if rmp_ok vmsa_page .VMPL1_VMSA false then
      (.ok vmsa_page, s1,
        [.allocEv (some vmsa_page), .rmpAdjustEv vmsa_page .VMPL1_VMSA false])
    else
      (.error (), free_page vmsa_page s1,
        [.allocEv (some vmsa_page), .rmpAdjustEv vmsa_page .VMPL1_VMSA false,
         .freePageEv vmsa_page])

/-- C2: `allocate_new_vmsa` attempts allocation first and the role grant
only after a successful allocation; when allocation fails the result is an
error, the allocator state is untouched and no `rmp_adjust` is attempted;
when the grant fails the allocated page is freed again, so the free pool is
exactly what it was before the call and no page stays
allocated-but-unregistered; on success it returns the page the allocator
produced, with the grant recorded after the allocation in the trace. -/
theorem allocate_new_vmsa_spec (rmp_ok : Nat → RMPFlags → Bool → Bool)
    (s : AllocState) :
    (s.free_pages = [] →
      allocate_new_vmsa rmp_ok s = (.error (), s, [.allocEv none])) ∧
    (∀ p rest, s.free_pages = p :: rest →
      rmp_ok p .VMPL1_VMSA false = false →
      allocate_new_vmsa rmp_ok s = (.error (), ⟨p :: rest⟩,
        [.allocEv (some p), .rmpAdjustEv p .VMPL1_VMSA false, .freePageEv p])) ∧
    (∀ p rest, s.free_pages = p :: rest →
      rmp_ok p .VMPL1_VMSA false = true →
      allocate_new_vmsa rmp_ok s = (.ok p, ⟨rest⟩,
        [.allocEv (some p), .rmpAdjustEv p .VMPL1_VMSA false])) := by
  refine ⟨?_, ?_, ?_⟩
  · intro h
    simp [allocate_new_vmsa, allocate_zeroed_page, h]
  · intro p rest h hr
    simp [allocate_new_vmsa, allocate_zeroed_page, h, hr, free_page]
  · intro p rest h hr
    simp [allocate_new_vmsa, allocate_zeroed_page, h, hr]

/-- Witness for C2: with a single free page at address 7 and a failing role
grant, the page is back in the free pool and the trace shows
allocate - grant - free in order. -/
theorem allocate_new_vmsa_spec_witness :
    allocate_new_vmsa (fun _ _ _ => false) ⟨[7]⟩ = (.error (), ⟨[7]⟩,
      [.allocEv (some 7), .rmpAdjustEv 7 .VMPL1_VMSA false, .freePageEv 7]) :=
  (allocate_new_vmsa_spec (fun _ _ _ => false) ⟨[7]⟩).2.1 7 [] rfl rfl

/-! ### Page-backed in-memory file (fs/ramfs.rs)

`RamFile` wraps `RawRamFile` in a reader/writer lock and forwards each
operation to it; the lock serialises access, so the embedding works on
`RawRamFile` directly.  A `PageRef` is a whole 4 KiB page, modelled as a
byte list of length `PAGE_SIZE`; `allocate_file_page_ref` is an external
allocator, modelled as a stream (list) of allocation outcomes consumed one
per call, where `none`, or an exhausted stream, is an allocation failure. -/

/-- `page_offset` from `crate::utils`: the offset of an address within its
page. -/
def page_offset (x : Nat) : Nat := x % PAGE_SIZE

/-- A `PageRef`: one whole page of bytes. -/
def Page : Type := {l : List UInt8 // l.length = PAGE_SIZE}

instance : DecidableEq Page := fun a b =>
  decidable_of_iff (a.val = b.val) Subtype.ext_iff.symm

/-- A freshly allocated zeroed page. -/
def zeroPage : Page := ⟨List.replicate PAGE_SIZE 0, by simp⟩

/-- `RawRamFile` (fs/ramfs.rs): allocated capacity in bytes, current file
size in bytes, and the held pages. -/
structure RawRamFile where
  capacity : Nat
  size : Nat
  pages : List Page
  deriving DecidableEq

/-- `RawRamFile::new`. -/
def RawRamFile.new : RawRamFile := ⟨0, 0, []⟩

/-- The capacity loop of `RawRamFile::set_capacity` with
`RawRamFile::increase_capacity` inlined (fs/ramfs.rs lines 33-48): while
the page-aligned requested capacity exceeds the current capacity, allocate
a file page, push it and add `PAGE_SIZE` to the capacity; an allocation
failure stops the loop, leaving the partially grown file. -/
def setCapLoop (alloc : List (Option Page)) (f : RawRamFile) (cap : Nat) :
    Except SvsmError Unit × RawRamFile × List (Option Page) :=
  if cap > f.capacity then
    match alloc with
    | [] => (.error .Alloc, f, [])
    | none :: rest => (.error .Alloc, f, rest)
    | some pg :: rest =>
      setCapLoop rest ⟨f.capacity + PAGE_SIZE, f.size, f.pages ++ [pg]⟩ cap
  else (.ok (), f, alloc)
termination_by cap - f.capacity
decreasing_by simp [PAGE_SIZE]; omega

/-- `RawRamFile::set_capacity` (fs/ramfs.rs): page-align the requested
capacity, then grow. -/
def RawRamFile.set_capacity (alloc : List (Option Page)) (f : RawRamFile)
    (capacity : Nat) : Except SvsmError Unit × RawRamFile × List (Option Page) :=
  setCapLoop alloc f (page_align_up capacity)

/-- `RawRamFile::read_from_page` (fs/ramfs.rs): the `len` bytes of the page
holding `offset` starting at the offset within that page.  The source
asserts the slice stays inside the page and indexes `pages` directly; the
embedding's out-of-range default (`zeroPage`) is unreachable from `read` on
a well-formed file. -/
def RawRamFile.read_from_page (f : RawRamFile) (len : Nat) (offset : Nat) :
    List UInt8 :=
  let page_index := page_offset offset
  let index := offset / PAGE_SIZE
  ((f.pages.getD index zeroPage).val.drop page_index).take len

/-- `RawRamFile::write_to_page` (fs/ramfs.rs): splice `buf` into the page
holding `offset` at the offset within that page.  The source asserts
`page_index + buf.len() ≤ PAGE_SIZE`; the guard keeps the page type
well-formed and is never taken from `write`. -/
def RawRamFile.write_to_page (f : RawRamFile) (buf : List UInt8) (offset : Nat) :
    RawRamFile :=
  let page_index := page_offset offset
  let index := offset / PAGE_SIZE
  let pg := f.pages.getD index zeroPage
  if h : page_index + buf.length ≤ PAGE_SIZE then
    let pg1 : Page := ⟨pg.val.take page_index ++ buf ++
        pg.val.drop (page_index + buf.length), by
      have hl := pg.property
      simp [List.length_take, List.length_drop, hl]
      omega⟩
    ⟨f.capacity, f.size, f.pages.set index pg1⟩
  else f

/-- The copy loop of `RawRamFile::read` (fs/ramfs.rs lines 80-95): while
buffer space remains, copy from the current page up to the page end or the
file size, whichever is closer; stop when no byte can be produced. -/
def readLoop (f : RawRamFile) (buf : List UInt8) (current len buf_offset : Nat) :
    Nat × List UInt8 :=
  if len > 0 then
    let page_end := min (page_align_up (current + 1)) f.size
    let page_len := min (page_end - current) len
    if page_len = 0 then (0, buf)
    else
      let buf_end := buf_offset + page_len
      let chunk := f.read_from_page page_len current
      let buf1 := buf.take buf_offset ++ chunk ++ buf.drop buf_end
      let r := readLoop f buf1 (current + page_len) (len - page_len) buf_end
      (page_len + r.1, r.2)
  else (0, buf)
termination_by len
decreasing_by omega

/-- `RawRamFile::read` (fs/ramfs.rs): clamp the start offset to the file
size, run the copy loop, and return the byte count (always `Ok`) together
with the buffer and the untouched file (`&self`). -/
def RawRamFile.read (f : RawRamFile) (buf : List UInt8) (offset : Nat) :
    Except SvsmError Nat × List UInt8 × RawRamFile :=
  let r := readLoop f buf (min offset f.size) buf.length 0
  (.ok r.1, r.2, f)

/-- The copy loop of `RawRamFile::write` (fs/ramfs.rs lines 111-122): write
page-bounded chunks of the buffer, raising the file size to the end of each
chunk. -/
def writeLoop (f : RawRamFile) (buf : List UInt8) (current len buf_offset : Nat) :
    Nat × RawRamFile :=
  if len > 0 then
    let page_len := min (PAGE_SIZE - page_offset current) len
    let buf_end := buf_offset + page_len
    let chunk := (buf.drop buf_offset).take page_len
    let f1 := f.write_to_page chunk current
    let f2 : RawRamFile := ⟨f1.capacity, max f1.size (current + page_len), f1.pages⟩
    let r := writeLoop f2 buf (current + page_len) (len - page_len) buf_end
    (page_len + r.1, r.2)
  else (0, f)
termination_by len
decreasing_by simp [PAGE_SIZE, page_offset]; omega

/-- `RawRamFile::write` (fs/ramfs.rs): `offset.checked_add(len)` guards
usize overflow, capacity is grown first (propagating allocation failure
with the partially grown file), then the copy loop runs. -/
def RawRamFile.write (alloc : List (Option Page)) (f : RawRamFile)
    (buf : List UInt8) (offset : Nat) :
    Except SvsmError Nat × RawRamFile × List (Option Page) :=
  if offset + buf.length < 2 ^ 64 then
    match f.set_capacity alloc (offset + buf.length) with
    | (.error e, f1, rest) => (.error e, f1, rest)
    | (.ok _, f1, rest) =>
      let r := writeLoop f1 buf offset buf.length 0
      (.ok r.1, r.2, rest)
  else (.error .FileSystem, f, alloc)

/-- The page-release loop of `RawRamFile::truncate` (fs/ramfs.rs lines
141-145): pop pages (each popped page is wiped and dropped) until only the
pages covering the new size remain. -/
def truncPopLoop (pages : List Page) (new_pages : Nat) : List Page :=
  if pages.length > new_pages then truncPopLoop pages.dropLast new_pages
  else pages
termination_by pages.length
decreasing_by simp; omega

/-- `RawRamFile::truncate` (fs/ramfs.rs): growing is rejected with a
file-system invalid-argument error before anything is touched; otherwise
surplus pages are popped, capacity and size are updated, and when the new
size ends inside a page the tail of that last page is zeroed.  The
source's `pages.last().unwrap()` is total here via the out-of-range
default, unreachable on a well-formed file. -/
def RawRamFile.truncate (f : RawRamFile) (size : Nat) :
    Except SvsmError Nat × RawRamFile :=
  if size > f.size then (.error .FileSystem, f)
  else
    let offset := page_offset size
    let base_pages := size / PAGE_SIZE
    let new_pages := if offset > 0 then base_pages + 1 else base_pages
    let pages1 := truncPopLoop f.pages new_pages
    if offset > 0 then
      let lastIdx := pages1.length - 1
      let pg := pages1.getD lastIdx zeroPage
      let pg1 : Page := ⟨pg.val.take offset ++ List.replicate (PAGE_SIZE - offset) 0, by
        have hl := pg.property
        have ho : offset < PAGE_SIZE := Nat.mod_lt _ (by norm_num [PAGE_SIZE])
        simp [List.length_take, hl]
        omega⟩
      (.ok size, ⟨new_pages * PAGE_SIZE, size, pages1.set lastIdx pg1⟩)
    else (.ok size, ⟨new_pages * PAGE_SIZE, size, pages1⟩)

/-- `RawRamFile::size` (fs/ramfs.rs): report the current size; `&self`
leaves the file untouched. -/
def RawRamFile.getSize (f : RawRamFile) : Nat × RawRamFile := (f.size, f)

/-- The `RawRamFile` data invariant: the capacity is exactly the held
pages times the page size, and the file size never exceeds the capacity. -/
def ramInv (f : RawRamFile) : Prop :=
  f.capacity = f.pages.length * PAGE_SIZE ∧ f.size ≤ f.capacity

/-- C8: truncating a `RamFile` to a size strictly greater than its current
size is rejected with the file-system invalid-argument error and the file —
size, capacity, pages and their contents — is returned completely
unchanged (`RamFile::truncate` forwards to `RawRamFile::truncate` under the
write lock). -/
theorem rawramfile_truncate_grow_rejected (f : RawRamFile) (size : Nat)
    (h : size > f.size) :
    f.truncate size = (.error .FileSystem, f) := by
  simp [RawRamFile.truncate, h]

/-- Witness for C8: truncating the empty file to size 5 fails and leaves
it untouched. -/
theorem rawramfile_truncate_grow_rejected_witness :
    RawRamFile.new.truncate 5 = (.error .FileSystem, RawRamFile.new) :=
  rawramfile_truncate_grow_rejected RawRamFile.new 5 (by simp [RawRamFile.new])

theorem setCapLoop_spec (alloc : List (Option Page)) (f : RawRamFile) (cap : Nat) :
    (f.capacity = f.pages.length * PAGE_SIZE →
      (setCapLoop alloc f cap).2.1.capacity =
        (setCapLoop alloc f cap).2.1.pages.length * PAGE_SIZE) ∧
    (setCapLoop alloc f cap).2.1.size = f.size ∧
    f.capacity ≤ (setCapLoop alloc f cap).2.1.capacity ∧
    ((setCapLoop alloc f cap).1 = .ok () → cap ≤ (setCapLoop alloc f cap).2.1.capacity) := by
  induction alloc, f, cap using setCapLoop.induct with
  | case1 f cap h =>
    rw [setCapLoop.eq_def]
    simp [h]
  | case2 f cap h rest =>
    rw [setCapLoop.eq_def]
    simp [h]
  | case3 f cap h pg rest ih =>
    rw [setCapLoop.eq_def]
    simp only [if_pos h]
    obtain ⟨i1, i2, i3, i4⟩ := ih
    simp only at i1 i2 i3 i4
    refine ⟨?_, i2, by omega, i4⟩
    intro hrel
    apply i1
    simp [List.length_append, hrel]
    ring
  | case4 alloc f cap h =>
    rw [setCapLoop.eq_def]
    simp [h]
    omega

theorem write_to_page_fields (f : RawRamFile) (buf : List UInt8) (offset : Nat) :
    (f.write_to_page buf offset).capacity = f.capacity ∧
    (f.write_to_page buf offset).size = f.size ∧
    (f.write_to_page buf offset).pages.length = f.pages.length := by
  rw [RawRamFile.write_to_page]
  split <;> simp

theorem writeLoop_spec :
    ∀ (len : Nat) (f : RawRamFile) (buf : List UInt8) (current buf_offset : Nat),
    (writeLoop f buf current len buf_offset).2.capacity = f.capacity ∧
    (writeLoop f buf current len buf_offset).2.pages.length = f.pages.length ∧
    (writeLoop f buf current len buf_offset).2.size ≤ max f.size (current + len) := by
  intro len
  induction len using Nat.strong_induction_on with
  | _ len ih =>
    intro f buf current buf_offset
    rw [writeLoop.eq_def]
    by_cases h : len > 0
    · simp only [if_pos h]
      have hq : page_offset current < PAGE_SIZE := Nat.mod_lt _ (by norm_num [PAGE_SIZE])
      set pl := min (PAGE_SIZE - page_offset current) len with hpl
      have hpl1 : 1 ≤ pl := by simp only [hpl]; omega
      have hpl2 : pl ≤ len := by simp only [hpl]; omega
      set chunk := (buf.drop buf_offset).take pl with hchunk
      set f1 := f.write_to_page chunk current with hf1
      obtain ⟨wc, ws, wp⟩ := write_to_page_fields f chunk current
      rw [← hf1] at wc ws wp
      obtain ⟨hc, hp, hs⟩ := ih (len - pl) (by omega)
        ⟨f1.capacity, max f1.size (current + pl), f1.pages⟩ buf (current + pl)
        (buf_offset + pl)
      refine ⟨by simpa [wc] using hc, by simpa [wp] using hp, ?_⟩
      refine le_trans hs ?_
      simp only [ws]
      simp only [max_le_iff, le_max_iff]
      omega
    · simp [h]

theorem truncPopLoop_length (pages : List Page) (n : Nat) :
    (truncPopLoop pages n).length = min n pages.length := by
  induction pages, n using truncPopLoop.induct with
  | case1 pages n h ih =>
    rw [truncPopLoop.eq_def]
    simp only [if_pos h]
    rw [ih]
    simp only [List.length_dropLast]
    omega
  | case2 pages n h =>
    rw [truncPopLoop.eq_def]
    simp only [if_neg h]
    omega

theorem page_align_up_ge (x : Nat) : x ≤ page_align_up x := by
  simp only [page_align_up, PAGE_SIZE]
  omega

/-- C9: every `RawRamFile` operation — `new`, `read`, `write`, `truncate`
and `size` — preserves the invariant that the capacity equals the number
of held pages times `PAGE_SIZE` and that the file size never exceeds the
capacity; `read` and `size` take the file by shared reference and return
it untouched. -/
theorem rawramfile_inv_preserved :
    ramInv RawRamFile.new ∧
    (∀ f buf offset, ramInv f → ramInv (RawRamFile.read f buf offset).2.2) ∧
    (∀ alloc f buf offset, ramInv f →
      ramInv (RawRamFile.write alloc f buf offset).2.1) ∧
    (∀ f sz, ramInv f → ramInv (RawRamFile.truncate f sz).2) ∧
    (∀ f, ramInv f → ramInv (RawRamFile.getSize f).2) := by
  refine ⟨by simp [ramInv, RawRamFile.new], fun f buf offset hf => hf, ?_, ?_,
    fun f hf => hf⟩
  · intro alloc f buf offset hf
    obtain ⟨hrel, hsz⟩ := hf
    rw [RawRamFile.write]
    by_cases hov : offset + buf.length < 2 ^ 64
    · simp only [if_pos hov, RawRamFile.set_capacity]
      obtain ⟨s1, s2, s3, s4⟩ :=
        setCapLoop_spec alloc f (page_align_up (offset + buf.length))
      rcases hsc : setCapLoop alloc f (page_align_up (offset + buf.length))
        with ⟨res, f1, rest⟩
      rw [hsc] at s1 s2 s3 s4
      simp only at s1 s2 s3 s4
      cases res with
      | error e =>
        refine ⟨s1 hrel, ?_⟩
        show f1.size ≤ f1.capacity
        rw [s2]
        omega
      | ok u =>
        have hcap : page_align_up (offset + buf.length) ≤ f1.capacity := s4 rfl
        have hge : offset + buf.length ≤ page_align_up (offset + buf.length) :=
          page_align_up_ge _
        obtain ⟨w1, w2, w3⟩ := writeLoop_spec buf.length f1 buf offset 0
        have e1 : f1.capacity = f1.pages.length * PAGE_SIZE := s1 hrel
        refine ⟨?_, ?_⟩
        · show (writeLoop f1 buf offset buf.length 0).2.capacity =
            (writeLoop f1 buf offset buf.length 0).2.pages.length * PAGE_SIZE
          rw [w1, w2, e1]
        · show (writeLoop f1 buf offset buf.length 0).2.size ≤
            (writeLoop f1 buf offset buf.length 0).2.capacity
          rw [w1]
          simp only [max_le_iff, le_max_iff] at w3
          omega
    · simp only [if_neg hov]
      exact ⟨hrel, hsz⟩
  · intro f sz hf
    obtain ⟨hrel, hsz⟩ := hf
    rw [RawRamFile.truncate]
    by_cases hgt : sz > f.size
    · simp only [if_pos hgt]
      exact ⟨hrel, hsz⟩
    · simp only [if_neg hgt]
      have hle : sz ≤ f.size := by omega
      have hq : page_offset sz < PAGE_SIZE := Nat.mod_lt _ (by norm_num [PAGE_SIZE])
      have hsc : sz ≤ f.pages.length * PAGE_SIZE := by omega
      by_cases hofs : page_offset sz > 0
      · have hnp : sz / PAGE_SIZE + 1 ≤ f.pages.length := by
          simp only [page_offset, PAGE_SIZE] at hq hofs hsc ⊢
          omega
        have hlen := truncPopLoop_length f.pages (sz / PAGE_SIZE + 1)
        rw [Nat.min_eq_left hnp] at hlen
        simp only [if_pos hofs]
        refine ⟨?_, ?_⟩
        · simp only [List.length_set, hlen]
        · simp only [page_offset, PAGE_SIZE] at hofs ⊢
          omega
      · have hnp : sz / PAGE_SIZE ≤ f.pages.length := by
          simp only [PAGE_SIZE] at hsc ⊢
          omega
        have hlen := truncPopLoop_length f.pages (sz / PAGE_SIZE)
        rw [Nat.min_eq_left hnp] at hlen
        simp only [if_neg hofs]
        refine ⟨?_, ?_⟩
        · simp only [hlen]
        · simp only [page_offset, PAGE_SIZE] at hofs ⊢
          omega

/-- Witness for C9: the invariant holds for the fresh file, survives a
rejected truncate and survives a write of the empty buffer with no
allocator pages available. -/
theorem rawramfile_inv_preserved_witness :
    ramInv RawRamFile.new ∧
    ramInv (RawRamFile.truncate RawRamFile.new 0).2 ∧
    ramInv (RawRamFile.write [] RawRamFile.new [] 3).2.1 :=
  ⟨rawramfile_inv_preserved.1,
   rawramfile_inv_preserved.2.2.2.1 RawRamFile.new 0 ⟨rfl, Nat.le.refl⟩,
   rawramfile_inv_preserved.2.2.1 [] RawRamFile.new [] 3 ⟨rfl, Nat.le.refl⟩⟩

theorem splice_drop (buf chunk : List UInt8) (bo m : Nat)
    (hbo : bo ≤ buf.length) (hm : bo + chunk.length ≤ m) :
    (buf.take bo ++ chunk ++ buf.drop (bo + chunk.length)).drop m = buf.drop m := by
  have h1 : (buf.take bo ++ chunk).length = bo + chunk.length := by
    simp [List.length_append, List.length_take]
    omega
  have hm1 : m = (buf.take bo ++ chunk).length + (m - (bo + chunk.length)) := by
    rw [h1]
    omega
  rw [hm1, List.drop_append, List.drop_drop]
  congr 1
  rw [h1]

theorem page_align_up_succ (x : Nat) :
    page_align_up (x + 1) = x - x % PAGE_SIZE + PAGE_SIZE := by
  simp only [page_align_up, PAGE_SIZE]
  omega

theorem readLoop_spec :
    ∀ (len : Nat) (f : RawRamFile) (buf : List UInt8) (current buf_offset : Nat),
    current ≤ f.size → buf_offset + len ≤ buf.length →
    (readLoop f buf current len buf_offset).1 = min len (f.size - current) ∧
    (readLoop f buf current len buf_offset).2.length = buf.length ∧
    ∀ m, buf_offset + min len (f.size - current) ≤ m →
      (readLoop f buf current len buf_offset).2.drop m = buf.drop m := by
  intro len
  induction len using Nat.strong_induction_on with
  | _ len ih =>
    intro f buf current buf_offset hcur hlen
    rw [readLoop.eq_def]
    by_cases h0 : len > 0
    · simp only [if_pos h0]
      have hau : current + 1 ≤ page_align_up (current + 1) := page_align_up_ge _
      have hA2 : page_align_up (current + 1) =
          current - current % PAGE_SIZE + PAGE_SIZE := page_align_up_succ current
      have hq : current % PAGE_SIZE < PAGE_SIZE := Nat.mod_lt _ (by norm_num [PAGE_SIZE])
      simp only [PAGE_SIZE] at hA2 hq
      by_cases hpl : min (min (page_align_up (current + 1)) f.size - current) len = 0
      · simp only [if_pos hpl]
        have hsz : f.size ≤ current := by omega
        have hsc : f.size - current = 0 := by omega
        refine ⟨?_, by simp, by intros; simp⟩
        show 0 = min len (f.size - current)
        rw [hsc, Nat.min_zero]
      · simp only [if_neg hpl]
        set PL := min (min (page_align_up (current + 1)) f.size - current) len with hPL
        have hpsize : current + PL ≤ f.size := by omega
        have hppage : PL ≤ PAGE_SIZE - current % PAGE_SIZE := by
          simp only [PAGE_SIZE]
          omega
        have hchlen : (f.read_from_page PL current).length = PL := by
          have hpg := (f.pages.getD (current / PAGE_SIZE) zeroPage).property
          simp only [PAGE_SIZE] at hpg
          simp only [RawRamFile.read_from_page, List.length_take, List.length_drop,
            page_offset, PAGE_SIZE, hpg]
          simp only [PAGE_SIZE] at hppage
          omega
        have hbo : buf_offset ≤ buf.length := by omega
        have hbo2 : buf_offset + PL ≤ buf.length := by omega
        set buf1 := buf.take buf_offset ++ f.read_from_page PL current ++
          buf.drop (buf_offset + PL) with hbuf1
        have hbuf1len : buf1.length = buf.length := by
          simp only [hbuf1, List.length_append, List.length_take, List.length_drop,
            hchlen]
          omega
        have hbuf1drop : ∀ m, buf_offset + PL ≤ m → buf1.drop m = buf.drop m := by
          intro m hm
          rw [hbuf1]
          have hs := splice_drop buf (f.read_from_page PL current) buf_offset m hbo
            (by rw [hchlen]; omega)
          rw [hchlen] at hs
          exact hs
        obtain ⟨r1, r2, r3⟩ := ih (len - PL) (by omega) f buf1 (current + PL)
          (buf_offset + PL) hpsize (by rw [hbuf1len]; omega)
        have hsplit : min len (f.size - current) =
            PL + min (len - PL) (f.size - (current + PL)) := by omega
        refine ⟨?_, ?_, ?_⟩
        · show PL + (readLoop f buf1 (current + PL) (len - PL) (buf_offset + PL)).1 =
            min len (f.size - current)
          rw [r1, hsplit]
        · show (readLoop f buf1 (current + PL) (len - PL) (buf_offset + PL)).2.length =
            buf.length
          rw [r2, hbuf1len]
        · intro m hm
          show (readLoop f buf1 (current + PL) (len - PL) (buf_offset + PL)).2.drop m =
            buf.drop m
          rw [r3 m (by omega), hbuf1drop m (by omega)]
    · simp only [if_neg h0]
      have hl0 : len = 0 := by omega
      subst hl0
      refine ⟨by simp, by simp, by intros; simp⟩

/-- C10: for every file, `read(buf, offset)` returns `Ok(n)` with `n` the
minimum of the buffer length and the bytes remaining between `offset` and
the file size (`Nat` subtraction makes this zero when the offset is at or
past the file size), the buffer keeps its length, and every byte from
position `n` on is untouched — only the first `n` bytes are written. -/
theorem rawramfile_read_count (f : RawRamFile) (buf : List UInt8) (offset : Nat) :
    (RawRamFile.read f buf offset).1 = .ok (min buf.length (f.size - offset)) ∧
    (RawRamFile.read f buf offset).2.1.length = buf.length ∧
    (RawRamFile.read f buf offset).2.1.drop (min buf.length (f.size - offset)) =
      buf.drop (min buf.length (f.size - offset)) := by
  obtain ⟨r1, r2, r3⟩ := readLoop_spec buf.length f buf (min offset f.size) 0
    (by omega) (by omega)
  have he : min buf.length (f.size - min offset f.size) =
      min buf.length (f.size - offset) := by omega
  rw [he] at r1 r3
  exact ⟨by simp only [RawRamFile.read, r1], by simp only [RawRamFile.read, r2],
    by simpa only [RawRamFile.read] using r3 _ (by omega)⟩

end Svsm
